import Mathlib

/-
Verification of two utilities of the repository:

* the tag scanner `split_content_into_text_and_thinking`
  (`pydantic_ai/_thinking_part.py`), which splits a flat string into
  `TextPart` / `ThinkingPart` segments around `<think>` / `</think>` markers;

* the structural XML serializer `format_as_xml` (`pydantic_ai/format_prompt.py`),
  which turns a Python value into an XML element tree and renders it.

Python strings are modelled as `List Char`; the unbounded `while True` loop of
the scanner is embedded with explicit fuel (one unit per loop iteration), and
termination of the loop is a proved theorem rather than an assumption.
-/

namespace ThinkingPart

/-- Scanner output segments: `TextPart` and `ThinkingPart` from
`pydantic_ai.messages` (only the `content` field is relevant here). -/
inductive Part where
  | text (content : List Char)
  | thinking (content : List Char)
  deriving DecidableEq, Repr

/-- `START_THINK_TAG = '<think>'` from `_thinking_part.py`. -/
def START_THINK_TAG : List Char := "<think>".data

/-- `END_THINK_TAG = '</think>'` from `_thinking_part.py`. -/
def END_THINK_TAG : List Char := "</think>".data

/-- Helper for `strFind`: scan `l` from absolute position `pos` for the first
occurrence of `needle`, returning its absolute index. -/
def findAux (needle : List Char) : List Char → Nat → Option Nat
  | [], pos => if List.isPrefixOf needle [] then some pos else none
  | c :: rest, pos =>
      if List.isPrefixOf needle (c :: rest) then some pos
      else findAux needle rest (pos + 1)

/-- Python `content.find(needle, start)`: the least index `j ≥ start` at which
`needle` occurs in `s`, as `some j`, and `none` (Python `-1`) if there is no
occurrence. -/
def strFind (s needle : List Char) (start : Nat) : Option Nat :=
  findAux needle (s.drop start) start

/-- One fuel unit per iteration of the scanner's `while True:` loop in
`split_content_into_text_and_thinking`; `none` means the fuel ran out. -/
def splitContentF (content : List Char) : Nat → Nat → Option (List Part)
  | _, 0 => none
  | currentIndex, fuel + 1 =>
      match strFind content START_THINK_TAG currentIndex with
      | none =>
          some (if currentIndex < content.length
                then [Part.text (content.drop currentIndex)] else [])
      | some startIndex =>
          let pre : List Part :=
            if currentIndex < startIndex
            then [Part.text ((content.drop currentIndex).take (startIndex - currentIndex))]
            else []
          let thinkStart := startIndex + START_THINK_TAG.length
          match strFind content END_THINK_TAG thinkStart with
          | none => some (pre ++ [Part.text (content.drop thinkStart)])
          | some endIndex =>
              match splitContentF content (endIndex + END_THINK_TAG.length) fuel with
              | none => none
              | some rest =>
                  some (pre ++ Part.thinking ((content.drop thinkStart).take (endIndex - thinkStart)) :: rest)

/-- `split_content_into_text_and_thinking(content)`: the scanner, run with
fuel `content.length + 1`, which is proved sufficient below. -/
def split_content_into_text_and_thinking (content : List Char) : List Part :=
  (splitContentF content 0 (content.length + 1)).getD []

/-- A piece of a full left-to-right decomposition of the scanner input: either
an emitted segment or a consumed tag marker. -/
inductive Piece where
  | seg (p : Part)
  | marker (m : List Char)
  deriving DecidableEq, Repr

/-- Characters covered by a piece. -/
def Piece.chars : Piece → List Char
  | .seg (Part.text c) => c
  | .seg (Part.thinking c) => c
  | .marker m => m

/-- The segment carried by a piece, if any. -/
def Piece.segOf : Piece → Option Part
  | .seg p => some p
  | .marker _ => none

end ThinkingPart

namespace FormatPrompt


/-- Mapping keys as they are distinguished by `_ToXml._mapping_to_xml`:
Python `isinstance(key, int)` is true for `bool` as well (bool is a subclass
of int), so `bool` keys follow the integer branch; any key that is neither
`int`/`bool` nor `str` is unsupported (`other` carries the type's name for the
error message). -/
inductive Key where
  | str (s : String)
  | int (i : Int)
  | bool (b : Bool)
  | other (typeName : String)
  deriving DecidableEq, Repr

/-- Serializable Python values as dispatched by `_ToXml.to_xml`, in the
source's `isinstance` precedence order. `bytes` carries the result of
`.decode(errors="ignore")`, `float` the result of Python `str(value)` and
`date` the result of `.isoformat()`, since those conversions happen in the
Python runtime, outside this module. `dataclass` carries the class name and
`__dict__` entries (field names are strings in Python; `Key.str` covers
them); `basemodel` carries the class name and the `model_dump(mode="python")`
entries. `unsupported` stands for any value matching none of the recognised
categories and carries its type name. -/
inductive Value where
  | none
  | str (s : String)
  | bytes (decoded : String)
  | bool (b : Bool)
  | int (i : Int)
  | float (strForm : String)
  | date (iso : String)
  | dataclass (clsName : String) (fields : List (Key × Value))
  | basemodel (clsName : String) (dump : List (Key × Value))
  | mapping (entries : List (Key × Value))
  | iterable (items : List Value)
  | unsupported (typeName : String)

/-- `xml.etree.ElementTree.Element` as used here: a tag, optional text and
ordered children. `to_xml` never sets tails, so tails are not modelled on the
tree; the tail whitespace added by `ElementTree.indent` is folded into the
indented renderer below. -/
inductive Element where
  | mk (tag : String) (text : Option String) (children : List Element)

/-- Tag of an element. -/
def Element.tag : Element → String
  | .mk t _ _ => t

/-- Text of an element. -/
def Element.text : Element → Option String
  | .mk _ t _ => t

/-- Children of an element. -/
def Element.children : Element → List Element
  | .mk _ _ c => c

/-- Python `item_tag if tag is None else tag`. -/
def tagOr (itemTag : String) : Option String → String
  | Option.none => itemTag
  | some t => t

/-- The key conversion of `_ToXml._mapping_to_xml`: `if isinstance(key, int):
key = str(key)` (which `bool` keys also take, giving `"True"`/`"False"`),
`elif not isinstance(key, str): raise TypeError(...)`. -/
def key_to_tag : Key → Except String String
  | Key.int i => .ok (toString i)
  | Key.bool b => .ok (if b then "True" else "False")
  | Key.str s => .ok s
  | Key.other typeName =>
      .error ("Unsupported key type for XML formatting: " ++ typeName ++
        ", only str and int are allowed")

mutual

/-- `_ToXml.to_xml(value, tag)`: dispatch over the value categories in the
source's order, producing an element or raising `TypeError` (modelled as
`Except.error`). -/
def to_xml (itemTag noneStr : String) : Value → Option String → Except String Element
  | Value.none, tag => .ok (.mk (tagOr itemTag tag) (some noneStr) [])
  | Value.str s, tag => .ok (.mk (tagOr itemTag tag) (some s) [])
  | Value.bytes d, tag => .ok (.mk (tagOr itemTag tag) (some d) [])
  | Value.bool b, tag =>
      .ok (.mk (tagOr itemTag tag) (some (if b then "True" else "False")) [])
  | Value.int i, tag => .ok (.mk (tagOr itemTag tag) (some (toString i)) [])
  | Value.float s, tag => .ok (.mk (tagOr itemTag tag) (some s) [])
  | Value.date s, tag => .ok (.mk (tagOr itemTag tag) (some s) [])
  | Value.dataclass clsName fields, tag =>
      match mapping_to_xml itemTag noneStr fields with
      | .error e => .error e
      | .ok cs =>
          .ok (.mk (match tag with | Option.none => clsName | some t => t) Option.none cs)
  | Value.basemodel clsName dump, tag =>
      match mapping_to_xml itemTag noneStr dump with
      | .error e => .error e
      | .ok cs =>
          .ok (.mk (match tag with | Option.none => clsName | some t => t) Option.none cs)
  | Value.mapping entries, tag =>
      match mapping_to_xml itemTag noneStr entries with
      | .error e => .error e
      | .ok cs => .ok (.mk (tagOr itemTag tag) Option.none cs)
  | Value.iterable items, tag =>
      match list_to_xml itemTag noneStr items with
      | .error e => .error e
      | .ok cs => .ok (.mk (tagOr itemTag tag) Option.none cs)
  | Value.unsupported typeName, _ =>
      .error ("Unsupported type for XML formatting: " ++ typeName)

/-- `_ToXml._mapping_to_xml`: convert each entry in order to a child element
tagged with the (stringified) key, stopping at the first error. -/
def mapping_to_xml (itemTag noneStr : String) :
    List (Key × Value) → Except String (List Element)
  | [] => .ok []
  | (k, v) :: rest =>
      match key_to_tag k with
      | .error e => .error e
      | .ok kt =>
          match to_xml itemTag noneStr v (some kt) with
          | .error e => .error e
          | .ok c =>
              match mapping_to_xml itemTag noneStr rest with
              | .error e => .error e
              | .ok cs => .ok (c :: cs)

/-- The iterable loop of `to_xml`: each item serialized with `tag = None`. -/
def list_to_xml (itemTag noneStr : String) : List Value → Except String (List Element)
  | [] => .ok []
  | v :: rest =>
      match to_xml itemTag noneStr v Option.none with
      | .error e => .error e
      | .ok c =>
          match list_to_xml itemTag noneStr rest with
          | .error e => .error e
          | .ok cs => .ok (c :: cs)

end

/-- `xml.sax.saxutils`-style escaping used by `ElementTree.tostring` for text
nodes: `&` → `&amp;`, `<` → `&lt;`, `>` → `&gt;`. -/
def escapeChar (c : Char) : String :=
  if c = '&' then "&amp;"
  else if c = '<' then "&lt;"
  else if c = '>' then "&gt;"
  else String.singleton c

/-- Escape a whole text node. -/
def escape (s : String) : String :=
  String.join (s.data.map escapeChar)

/-- Python `not s.strip()`: `s` is empty or consists of whitespace only. -/
def isBlank (s : String) : Bool :=
  s.data.all Char.isWhitespace

/-- `space * level` for the indentation strings of `ElementTree.indent`. -/
def srep (s : String) : Nat → String
  | 0 => ""
  | n + 1 => s ++ srep s n

/-- The indentation string `"\n" + space * level` of `ElementTree.indent`. -/
def nlIndent (space : String) (level : Nat) : String :=
  "\n" ++ srep space level

/-- Rendering of a childless element by `ElementTree.tostring`: `<tag />` when
the text is `None` or empty, `<tag>text</tag>` otherwise. -/
def renderLeaf (tag : String) (text : Option String) : String :=
  if text.getD "" = "" then "<" ++ tag ++ " />"
  else "<" ++ tag ++ ">" ++ escape (text.getD "") ++ "</" ++ tag ++ ">"

mutual

/-- `ElementTree.tostring(el, encoding="unicode")` of a tree whose tails are
all unset (as produced by `to_xml`), without indentation. -/
def renderPlain : Element → String
  | .mk tag text [] => renderLeaf tag text
  | .mk tag text (c :: cs) =>
      "<" ++ tag ++ ">" ++ escape (text.getD "") ++ renderPlainList (c :: cs) ++
        "</" ++ tag ++ ">"

/-- Children of an element rendered in order (their tails are unset). -/
def renderPlainList : List Element → String
  | [] => ""
  | c :: cs => renderPlain c ++ renderPlainList cs

end

mutual

/-- `ElementTree.tostring(el, encoding="unicode")` after
`ElementTree.indent(el, space=space)` starting at `level`: an element with
children has its (empty-or-whitespace) text replaced by `"\n" + space*(level+1)`
and its children get tails `"\n" + space*(level+1)`, the last child
`"\n" + space*level` (kept only while those indentation strings are
whitespace, as in the source of `ElementTree.indent`); childless elements are
rendered as without indentation. -/
def renderIndent (space : String) : Nat → Element → String
  | _, .mk tag text [] => renderLeaf tag text
  | level, .mk tag text (c :: cs) =>
      let childInd := nlIndent space (level + 1)
      let txt :=
        match text with
        | Option.none => childInd
        | some s => if isBlank s then childInd else s
      let lastTail := if isBlank childInd then nlIndent space level else childInd
      "<" ++ tag ++ ">" ++ escape txt ++
        renderIndentList space (level + 1) lastTail (c :: cs) ++ "</" ++ tag ++ ">"

/-- Children rendered at `level`, each followed by its tail: `"\n" + space*level`
between children, `lastTail` after the final child. -/
def renderIndentList (space : String) : Nat → String → List Element → String
  | _, _, [] => ""
  | level, lastTail, [c] => renderIndent space level c ++ lastTail
  | level, lastTail, c :: c2 :: cs =>
      renderIndent space level c ++ nlIndent space level ++
        renderIndentList space level lastTail (c2 :: cs)

end

/-- One element rendered as at top level: `ElementTree.indent(el, space)` first
when an indent is configured, then `tostring`. -/
def renderTop (indent : Option String) (el : Element) : String :=
  match indent with
  | Option.none => renderPlain el
  | some space => renderIndent space 0 el

/-- `_rootless_xml_elements(root, indent)`: each child of the root rendered
individually (each independently indented if indentation is enabled). -/
def rootless_xml_elements (root : Element) (indent : Option String) : List String :=
  root.children.map (renderTop indent)

/-- `format_as_xml(obj, root_tag, item_tag, none_str, indent)` from
`format_prompt.py`. -/
def format_as_xml (obj : Value) (rootTag : Option String) (itemTag : String)
    (noneStr : String) (indent : Option String) : Except String String :=
  match to_xml itemTag noneStr obj rootTag with
  | .error e => .error e
  | .ok el =>
      if rootTag = Option.none ∧ el.text = Option.none then
        let join := match indent with | Option.none => "" | some _ => "\n"
        .ok (String.intercalate join (rootless_xml_elements el indent))
      else
        .ok (renderTop indent el)

/-- The invariant claimed by the spec (C2), stated on the produced tree: every
leaf element (no children) has text, and every container element has at least
one child and no direct text. -/
inductive Good : Element → Prop where
  | leaf : ∀ (tag : String) (t : String), Good (.mk tag (some t) [])
  | node : ∀ (tag : String) (cs : List Element), cs ≠ [] →
      (∀ c ∈ cs, Good c) → Good (.mk tag Option.none cs)

/-- The invariant the code actually maintains: an element with children has no
direct text (recursively); a childless element is unconstrained (it may lack
text, which happens exactly for empty mappings/records/collections). -/
inductive Sane : Element → Prop where
  | leaf : ∀ (tag : String) (t : Option String), Sane (.mk tag t [])
  | node : ∀ (tag : String) (cs : List Element), cs ≠ [] →
      (∀ c ∈ cs, Sane c) → Sane (.mk tag Option.none cs)

/-- Values whose serialized element has neither text nor children: empty
mappings, empty records and empty collections. -/
def isEmptyContainer : Value → Bool
  | Value.mapping [] => true
  | Value.dataclass _ [] => true
  | Value.basemodel _ [] => true
  | Value.iterable [] => true
  | _ => false

end FormatPrompt

namespace ThinkingPart

theorem findAux_ge {n : List Char} :
    ∀ {l : List Char} {pos j : Nat}, findAux n l pos = some j → pos ≤ j := by
  intro l
  induction l with
  | nil =>
      intro pos j h
      simp only [findAux] at h
      split at h
      · exact Option.some.inj h ▸ Nat.le_refl _
      · exact absurd h (by simp)
  | cons c rest ih =>
      intro pos j h
      simp only [findAux] at h
      split at h
      · exact Option.some.inj h ▸ Nat.le_refl _
      · exact Nat.le_of_succ_le (ih h)

theorem findAux_isPrefixOf {n : List Char} :
    ∀ {l : List Char} {pos j : Nat}, findAux n l pos = some j →
      List.isPrefixOf n (l.drop (j - pos)) = true := by
  intro l
  induction l with
  | nil =>
      intro pos j h
      simp only [findAux] at h
      split at h
      · next hp => cases h; simpa [Nat.sub_self] using hp
      · exact absurd h (by simp)
  | cons c rest ih =>
      intro pos j h
      simp only [findAux] at h
      split at h
      · next hp => cases h; simpa [Nat.sub_self] using hp
      · have hge := findAux_ge h
        have := ih h
        have hsub : j - pos = (j - (pos + 1)) + 1 := by omega
        simpa [hsub] using this

theorem isPrefixOf_append_drop :
    ∀ (n l : List Char), List.isPrefixOf n l = true → n ++ l.drop n.length = l
  | [], l, _ => by simp
  | a :: n, [], h => by simp [List.isPrefixOf] at h
  | a :: n, b :: l, h => by
      simp only [List.isPrefixOf, Bool.and_eq_true, beq_iff_eq] at h
      obtain ⟨rfl, h2⟩ := h
      simpa using isPrefixOf_append_drop n l h2

theorem isPrefixOf_length_le {n l : List Char} (h : List.isPrefixOf n l = true) :
    n.length ≤ l.length := by
  have := isPrefixOf_append_drop n l h
  calc n.length ≤ n.length + (l.drop n.length).length := Nat.le_add_right _ _
    _ = (n ++ l.drop n.length).length := (List.length_append _ _).symm
    _ = l.length := by rw [this]

theorem strFind_ge {s n : List Char} {i j : Nat} (h : strFind s n i = some j) : i ≤ j :=
  findAux_ge h

theorem strFind_isPrefixOf {s n : List Char} {i j : Nat} (h : strFind s n i = some j) :
    List.isPrefixOf n (s.drop j) = true := by
  have hge : i ≤ j := strFind_ge h
  have := findAux_isPrefixOf (h : findAux n (s.drop i) i = some j)
  rwa [List.drop_drop, Nat.add_sub_cancel' hge] at this

theorem strFind_decomp {s n : List Char} {i j : Nat} (h : strFind s n i = some j) :
    s.drop i = (s.drop i).take (j - i) ++ (n ++ s.drop (j + n.length)) := by
  have hge : i ≤ j := strFind_ge h
  have hpre := strFind_isPrefixOf h
  have hdj : s.drop j = n ++ s.drop (j + n.length) := by
    have := isPrefixOf_append_drop n (s.drop j) hpre
    rw [List.drop_drop] at this
    rw [← this, Nat.add_comm]
  calc s.drop i = (s.drop i).take (j - i) ++ (s.drop i).drop (j - i) :=
        (List.take_append_drop _ _).symm
    _ = (s.drop i).take (j - i) ++ s.drop j := by
        rw [List.drop_drop, Nat.add_sub_cancel' hge]
    _ = (s.drop i).take (j - i) ++ (n ++ s.drop (j + n.length)) := by rw [hdj]

theorem findAux_le {n : List Char} (hn : n ≠ []) :
    ∀ {l : List Char} {pos j : Nat}, findAux n l pos = some j →
      j - pos + n.length ≤ l.length := by
  intro l
  induction l with
  | nil =>
      intro pos j h
      simp only [findAux] at h
      split at h
      · next hp =>
          exact absurd (isPrefixOf_length_le hp)
            (by cases n with | nil => exact absurd rfl hn | cons a t => simp)
      · exact absurd h (by simp)
  | cons c rest ih =>
      intro pos j h
      simp only [findAux] at h
      split at h
      · next hp =>
          cases h
          have := isPrefixOf_length_le hp
          simpa [Nat.sub_self] using this
      · have hge := findAux_ge h
        have := ih h
        simp only [List.length_cons]
        omega

theorem strFind_fits {s n : List Char} {i j : Nat} (hn : n ≠ [])
    (h : strFind s n i = some j) : j + n.length ≤ s.length := by
  have hge : i ≤ j := strFind_ge h
  have hle := findAux_le hn (h : findAux n (s.drop i) i = some j)
  have hlen : (s.drop i).length = s.length - i := List.length_drop _ _
  rw [hlen] at hle
  by_cases hi : i ≤ s.length
  · omega
  · exfalso
    have : s.drop i = [] := List.drop_eq_nil_of_le (by omega)
    rw [show strFind s n i = findAux n (s.drop i) i from rfl, this] at h
    simp only [findAux] at h
    split at h
    · next hp =>
        exact absurd (isPrefixOf_length_le hp)
          (by cases n with | nil => exact absurd rfl hn | cons a t => simp)
    · exact absurd h (by simp)

theorem start_tag_ne_nil : START_THINK_TAG ≠ [] := by decide

theorem end_tag_ne_nil : END_THINK_TAG ≠ [] := by decide

theorem start_tag_length : START_THINK_TAG.length = 7 := by decide

theorem end_tag_length : END_THINK_TAG.length = 8 := by decide

theorem splitF_mono {s : List Char} :
    ∀ {fuel fuel' i : Nat} {r : List Part}, fuel ≤ fuel' →
      splitContentF s i fuel = some r → splitContentF s i fuel' = some r := by
  intro fuel
  induction fuel with
  | zero => intro fuel' i r _ h; exact absurd h (by simp [splitContentF])
  | succ fuel ih =>
      intro fuel' i r hle h
      cases fuel' with
      | zero => omega
      | succ fuel'' =>
          simp only [splitContentF] at h ⊢
          cases hs : strFind s START_THINK_TAG i with
          | none => simp only [hs] at h ⊢; exact h
          | some startIndex =>
              simp only [hs] at h ⊢
              cases he : strFind s END_THINK_TAG (startIndex + START_THINK_TAG.length) with
              | none => simp only [he] at h ⊢; exact h
              | some endIndex =>
                  simp only [he] at h ⊢
                  cases hr : splitContentF s (endIndex + END_THINK_TAG.length) fuel with
                  | none => simp only [hr] at h; exact absurd h (by simp)
                  | some rest =>
                      simp only [hr] at h
                      simp only [ih (by omega : fuel ≤ fuel'') hr]
                      exact h

theorem splitF_isSome {s : List Char} :
    ∀ {fuel i : Nat}, i ≤ s.length → s.length < i + fuel →
      (splitContentF s i fuel).isSome = true := by
  intro fuel
  induction fuel with
  | zero => intro i h1 h2; omega
  | succ fuel ih =>
      intro i hi hlen
      simp only [splitContentF]
      cases hs : strFind s START_THINK_TAG i with
      | none => simp
      | some startIndex =>
          simp only
          cases he : strFind s END_THINK_TAG (startIndex + START_THINK_TAG.length) with
          | none => simp [he]
          | some endIndex =>
              simp only [he]
              have h1 : i ≤ startIndex := strFind_ge hs
              have h2 : startIndex + START_THINK_TAG.length ≤ endIndex := strFind_ge he
              have h3 : endIndex + END_THINK_TAG.length ≤ s.length :=
                strFind_fits end_tag_ne_nil he
              have hrec : (splitContentF s (endIndex + END_THINK_TAG.length) fuel).isSome = true := by
                apply ih h3
                have := start_tag_length
                have := end_tag_length
                omega
              cases hr : splitContentF s (endIndex + END_THINK_TAG.length) fuel with
              | none => rw [hr] at hrec; simp at hrec
              | some rest => simp [hr]

theorem splitF_complete {s : List Char} {fuel : Nat} (h : s.length < fuel) :
    splitContentF s 0 fuel = some (split_content_into_text_and_thinking s) := by
  have hs : (splitContentF s 0 (s.length + 1)).isSome = true :=
    splitF_isSome (Nat.zero_le _) (by omega)
  cases hr : splitContentF s 0 (s.length + 1) with
  | none => rw [hr] at hs; simp at hs
  | some r =>
      have : split_content_into_text_and_thinking s = r := by
        simp [split_content_into_text_and_thinking, hr]
      rw [this]
      exact splitF_mono (by omega) hr

theorem splitF_pieces {s : List Char} :
    ∀ {fuel i : Nat} {r : List Part}, splitContentF s i fuel = some r →
      ∃ pieces : List Piece,
        (pieces.map Piece.chars).flatten = s.drop i ∧
        pieces.filterMap Piece.segOf = r ∧
        ∀ m, Piece.marker m ∈ pieces → m = START_THINK_TAG ∨ m = END_THINK_TAG := by
  intro fuel
  induction fuel with
  | zero => intro i r h; exact absurd h (by simp [splitContentF])
  | succ fuel ih =>
      intro i r h
      simp only [splitContentF] at h
      cases hs : strFind s START_THINK_TAG i with
      | none =>
          simp only [hs] at h
          cases h
          by_cases hi : i < s.length
          · exact ⟨[Piece.seg (Part.text (s.drop i))], by simp [Piece.chars],
              by simp [hi, Piece.segOf], by simp⟩
          · refine ⟨[], by simp [List.drop_eq_nil_of_le (by omega : s.length ≤ i)], ?_, by simp⟩
            simp [hi]
      | some startIndex =>
          simp only [hs] at h
          have hd1 := strFind_decomp hs
          have hge1 : i ≤ startIndex := strFind_ge hs
          cases he : strFind s END_THINK_TAG (startIndex + START_THINK_TAG.length) with
          | none =>
              simp only [he] at h
              cases h
              by_cases hlt : i < startIndex
              · refine ⟨[Piece.seg (Part.text ((s.drop i).take (startIndex - i))),
                  Piece.marker START_THINK_TAG,
                  Piece.seg (Part.text (s.drop (startIndex + START_THINK_TAG.length)))],
                  ?_, by simp [hlt, Piece.segOf], by simp⟩
                simp only [List.map_cons, List.map_nil, Piece.chars, List.flatten_cons,
                  List.flatten_nil, List.append_nil]
                conv_rhs => rw [hd1]
              · have : startIndex = i := by omega
                subst this
                refine ⟨[Piece.marker START_THINK_TAG,
                  Piece.seg (Part.text (s.drop (startIndex + START_THINK_TAG.length)))],
                  ?_, by simp [hlt, Piece.segOf], by simp⟩
                simp only [List.map_cons, List.map_nil, Piece.chars, List.flatten_cons,
                  List.flatten_nil, List.append_nil]
                conv_rhs => rw [hd1]
                simp [Nat.sub_self]
          | some endIndex =>
              simp only [he] at h
              have hd2 := strFind_decomp he
              cases hr : splitContentF s (endIndex + END_THINK_TAG.length) fuel with
              | none => simp only [hr] at h; exact absurd h (by simp)
              | some rest =>
                  simp only [hr] at h
                  cases h
                  obtain ⟨piecesR, hj, hf, hm⟩ := ih hr
                  by_cases hlt : i < startIndex
                  · refine ⟨Piece.seg (Part.text ((s.drop i).take (startIndex - i))) ::
                      Piece.marker START_THINK_TAG ::
                      Piece.seg (Part.thinking ((s.drop (startIndex + START_THINK_TAG.length)).take
                        (endIndex - (startIndex + START_THINK_TAG.length)))) ::
                      Piece.marker END_THINK_TAG :: piecesR,
                      ?_, ?_, ?_⟩
                    · simp only [List.map_cons, Piece.chars, List.flatten_cons, hj]
                      conv_rhs => rw [hd1, hd2]
                    · simp [hlt, Piece.segOf, hf]
                    · intro m hmem
                      simp only [List.mem_cons] at hmem
                      rcases hmem with h1 | h1 | h1 | h1 | h1
                      · cases h1
                      · exact Or.inl (Piece.marker.inj h1)
                      · cases h1
                      · exact Or.inr (Piece.marker.inj h1)
                      · exact hm m h1
                  · have : startIndex = i := by omega
                    subst this
                    refine ⟨Piece.marker START_THINK_TAG ::
                      Piece.seg (Part.thinking ((s.drop (startIndex + START_THINK_TAG.length)).take
                        (endIndex - (startIndex + START_THINK_TAG.length)))) ::
                      Piece.marker END_THINK_TAG :: piecesR,
                      ?_, ?_, ?_⟩
                    · simp only [List.map_cons, Piece.chars, List.flatten_cons, hj]
                      conv_rhs => rw [hd1, hd2]
                      simp [Nat.sub_self]
                    · simp [hlt, Piece.segOf, hf]
                    · intro m hmem
                      simp only [List.mem_cons] at hmem
                      rcases hmem with h1 | h1 | h1 | h1
                      · exact Or.inl (Piece.marker.inj h1)
                      · cases h1
                      · exact Or.inr (Piece.marker.inj h1)
                      · exact hm m h1

theorem splitF_no_empty_text {s : List Char} :
    ∀ {fuel i : Nat} {r : List Part}, splitContentF s i fuel = some r →
      Part.text [] ∉ r.dropLast := by
  intro fuel
  induction fuel with
  | zero => intro i r h; exact absurd h (by simp [splitContentF])
  | succ fuel ih =>
      intro i r h
      simp only [splitContentF] at h
      cases hs : strFind s START_THINK_TAG i with
      | none =>
          simp only [hs] at h
          cases h
          by_cases hi : i < s.length <;> simp [hi]
      | some startIndex =>
          simp only [hs] at h
          have hge1 : i ≤ startIndex := strFind_ge hs
          have hfit1 : startIndex + START_THINK_TAG.length ≤ s.length :=
            strFind_fits start_tag_ne_nil hs
          have hstl := start_tag_length
          have htake : i < startIndex → ((s.drop i).take (startIndex - i)) ≠ [] := by
            intro hlt hcon
            have := congrArg List.length hcon
            simp only [List.length_take, List.length_drop, List.length_nil] at this
            omega
          cases he : strFind s END_THINK_TAG (startIndex + START_THINK_TAG.length) with
          | none =>
              simp only [he] at h
              cases h
              rw [List.dropLast_concat]
              by_cases hlt : i < startIndex
              · simp only [hlt, if_true, List.mem_singleton]
                intro hcon
                exact htake hlt (Part.text.inj hcon).symm
              · simp [hlt]
          | some endIndex =>
              simp only [he] at h
              cases hr : splitContentF s (endIndex + END_THINK_TAG.length) fuel with
              | none => simp only [hr] at h; exact absurd h (by simp)
              | some rest =>
                  simp only [hr] at h
                  cases h
                  rw [List.dropLast_append_cons]
                  intro hmem
                  rcases List.mem_append.mp hmem with h1 | h1
                  · by_cases hlt : i < startIndex
                    · simp only [hlt, if_true, List.mem_singleton] at h1
                      exact htake hlt (Part.text.inj h1).symm
                    · simp [hlt] at h1
                  · cases rest with
                    | nil => simp at h1
                    | cons x xs =>
                        rw [List.dropLast_cons₂] at h1
                        rcases List.mem_cons.mp h1 with h2 | h2
                        · exact absurd h2 (by simp)
                        · exact ih hr h2

/-- C1 (counterexample): the unterminated remainder after an open marker is
emitted as a `TextPart`, not a `ThinkingPart` (Annotation): scanning
`"x<think>y"` yields `[PlainText "x", PlainText "y"]`, not
`[PlainText "x", Annotation "y"]` as the claim states. -/
theorem claim1_counterexample :
    split_content_into_text_and_thinking "x<think>y".data
        = [Part.text ['x'], Part.text ['y']] ∧
    split_content_into_text_and_thinking "x<think>y".data
        ≠ [Part.text ['x'], Part.thinking ['y']] := by
  exact ⟨by decide, by decide⟩

/-- C1 (amended): whenever the scanner, at position `i`, finds an open marker
at `j` with no following close marker, it emits the remainder of the string
(from just after the open marker to end of input) as a `PlainText` (`TextPart`)
segment — preceded by the pending plain text, if nonempty — and terminates at
once (for every remaining fuel; further open markers in the remainder are not
reinterpreted). -/
theorem claim1_amended (s : List Char) (i j : Nat)
    (hs : strFind s START_THINK_TAG i = some j)
    (he : strFind s END_THINK_TAG (j + START_THINK_TAG.length) = none) :
    ∀ fuel, splitContentF s i (fuel + 1) =
      some ((if i < j then [Part.text ((s.drop i).take (j - i))] else []) ++
        [Part.text (s.drop (j + START_THINK_TAG.length))]) := by
  intro fuel
  simp only [splitContentF, hs, he]

/-- Witness for C1 (amended): scanning `"x<think>y"` yields
`[PlainText "x", PlainText "y"]`. -/
theorem claim1_amended_witness :
    split_content_into_text_and_thinking "x<think>y".data
      = [Part.text ['x'], Part.text ['y']] := by
  have h := claim1_amended ("x<think>y".data) 0 1 (by decide) (by decide)
    ("x<think>y".data.length)
  simp only [split_content_into_text_and_thinking, h, Option.getD_some]
  decide

/-- C3: for every input string there is a left-to-right decomposition of the
input into the scanner's segments and consumed `<think>`/`</think>` markers:
concatenating the contents of all segments, in output order, reproduces every
character of the input that is not part of a consumed marker, exactly once and
in the original order. -/
theorem claim3_concat_reproduces_input (s : List Char) :
    ∃ pieces : List Piece,
      (pieces.map Piece.chars).flatten = s ∧
      pieces.filterMap Piece.segOf = split_content_into_text_and_thinking s ∧
      ∀ m, Piece.marker m ∈ pieces → m = START_THINK_TAG ∨ m = END_THINK_TAG := by
  have h := @splitF_complete s (s.length + 1) (by omega)
  obtain ⟨pieces, hj, hf, hm⟩ := splitF_pieces h
  exact ⟨pieces, by simpa using hj, hf, hm⟩

/-- C4 (counterexample): the scanner can emit an empty `PlainText` segment:
scanning `"<think>"` (an open marker with empty unterminated remainder) yields
`[PlainText ""]`. -/
theorem claim4_counterexample :
    split_content_into_text_and_thinking "<think>".data = [Part.text []] ∧
    Part.text [] ∈ split_content_into_text_and_thinking "<think>".data := by
  exact ⟨by decide, by decide⟩

/-- C4 (amended): an empty `PlainText` segment can only be the final segment
(it arises only for an unterminated open marker whose remainder is empty);
zero-length runs between adjacent markers produce no segment, and an
Annotation (`ThinkingPart`) segment is emitted even when its content is empty:
scanning `"<think>a</think><think>b</think>"` yields exactly
`[Annotation "a", Annotation "b"]` with no empty `PlainText` between them, and
scanning `"<think></think>"` yields `[Annotation ""]`. -/
theorem claim4_amended :
    (∀ s : List Char,
      Part.text [] ∉ (split_content_into_text_and_thinking s).dropLast) ∧
    split_content_into_text_and_thinking "<think>a</think><think>b</think>".data
      = [Part.thinking ['a'], Part.thinking ['b']] ∧
    split_content_into_text_and_thinking "<think></think>".data
      = [Part.thinking []] := by
  refine ⟨?_, by decide, by decide⟩
  intro s
  exact splitF_no_empty_text (@splitF_complete s (s.length + 1) (by omega))

/-- C8: the scanner is total: for every input string, the scanning loop
terminates — any fuel beyond the input length yields the same well-defined
segmentation (and the embedding has no error outcome). -/
theorem claim8_scanner_total (s : List Char) (fuel : Nat) (h : s.length < fuel) :
    splitContentF s 0 fuel = some (split_content_into_text_and_thinking s) :=
  splitF_complete h

/-- Witness for C8 at a concrete input and fuel. -/
theorem claim8_scanner_total_witness :
    "ab<think>c</think>".data.length < 20 ∧
    splitContentF "ab<think>c</think>".data 0 20
      = some (split_content_into_text_and_thinking "ab<think>c</think>".data) :=
  ⟨by decide, claim8_scanner_total ("ab<think>c</think>".data) 20 (by decide)⟩

end ThinkingPart

namespace FormatPrompt

theorem to_xml_tag {it ns : String} {v : Value} {t : String} {el : Element}
    (h : to_xml it ns v (some t) = .ok el) : Element.tag el = t := by
  cases v <;> simp only [to_xml, tagOr] at h <;>
    first
      | (split at h <;> (try cases h) <;> rfl)
      | (cases h; rfl)
      | cases h

theorem mapping_to_xml_forall2 {it ns : String} :
    ∀ {es : List (Key × Value)} {cs : List Element},
      mapping_to_xml it ns es = .ok cs →
      List.Forall₂ (fun kv c => key_to_tag kv.1 = .ok (Element.tag c)) es cs := by
  intro es
  induction es with
  | nil =>
      intro cs h
      simp only [mapping_to_xml] at h
      cases h
      exact List.Forall₂.nil
  | cons kv rest ih =>
      intro cs h
      obtain ⟨k, v⟩ := kv
      simp only [mapping_to_xml] at h
      split at h
      · cases h
      · next kt hk =>
          split at h
          · cases h
          · next c hc =>
              split at h
              · cases h
              · next cs2 hrest =>
                  cases h
                  refine List.Forall₂.cons ?_ (ih hrest)
                  rw [to_xml_tag hc]
                  exact hk

theorem forall2_exists_right {α β : Type} {r : α → β → Prop} :
    ∀ {l1 : List α} {l2 : List β}, List.Forall₂ r l1 l2 →
      ∀ a ∈ l1, ∃ b ∈ l2, r a b := by
  intro l1 l2 h
  induction h with
  | nil => intro a ha; simp at ha
  | cons hr hrest ih =>
      intro a ha
      rcases List.mem_cons.mp ha with rfl | ha2
      · exact ⟨_, List.mem_cons_self _ _, hr⟩
      · obtain ⟨b, hb, hrb⟩ := ih a ha2
        exact ⟨b, List.mem_cons_of_mem _ hb, hrb⟩

theorem mapping_to_xml_err (it ns : String) :
    ∀ (es : List (Key × Value)) (k : Key) (v : Value) (n : String),
      (k, v) ∈ es → k = Key.other n →
      ∃ msg, mapping_to_xml it ns es = .error msg := by
  intro es
  induction es with
  | nil => intro k v n hmem _; simp at hmem
  | cons kv rest ih =>
      intro k v n hmem hk
      obtain ⟨k0, v0⟩ := kv
      cases hkt : key_to_tag k0 with
      | error e => exact ⟨e, by simp [mapping_to_xml, hkt]⟩
      | ok kt =>
          rcases List.mem_cons.mp hmem with heq | hmem2
          · exfalso
            have hk0 : k0 = Key.other n := by
              have := (Prod.mk.injEq k v k0 v0).mp heq
              rw [← this.1, hk]
            rw [hk0] at hkt
            simp [key_to_tag] at hkt
          · obtain ⟨msg, hmsg⟩ := ih k v n hmem2 hk
            cases hv : to_xml it ns v0 (some kt) with
            | error e => exact ⟨e, by simp [mapping_to_xml, hkt, hv]⟩
            | ok c => exact ⟨msg, by simp [mapping_to_xml, hkt, hv, hmsg]⟩

theorem mapping_to_xml_length {it ns : String} :
    ∀ {es : List (Key × Value)} {cs : List Element},
      mapping_to_xml it ns es = .ok cs → cs.length = es.length := by
  intro es
  induction es with
  | nil => intro cs h; simp only [mapping_to_xml] at h; cases h; rfl
  | cons kv rest ih =>
      intro cs h
      obtain ⟨k, v⟩ := kv
      simp only [mapping_to_xml] at h
      split at h
      · cases h
      · split at h
        · cases h
        · split at h
          · cases h
          · next cs2 hrest => cases h; simp [ih hrest]

theorem list_to_xml_length {it ns : String} :
    ∀ {vs : List Value} {cs : List Element},
      list_to_xml it ns vs = .ok cs → cs.length = vs.length := by
  intro vs
  induction vs with
  | nil => intro cs h; simp only [list_to_xml] at h; cases h; rfl
  | cons v rest ih =>
      intro cs h
      simp only [list_to_xml] at h
      split at h
      · cases h
      · split at h
        · cases h
        · next cs2 hrest => cases h; simp [ih hrest]

theorem sane_all (it ns : String) :
    ∀ n : Nat,
      (∀ v : Value, sizeOf v ≤ n → ∀ (tag : Option String) (el : Element),
        to_xml it ns v tag = .ok el → Sane el) ∧
      (∀ es : List (Key × Value), sizeOf es ≤ n → ∀ cs : List Element,
        mapping_to_xml it ns es = .ok cs → ∀ c ∈ cs, Sane c) ∧
      (∀ vs : List Value, sizeOf vs ≤ n → ∀ cs : List Element,
        list_to_xml it ns vs = .ok cs → ∀ c ∈ cs, Sane c) := by
  intro n
  induction n using Nat.strong_induction_on with
  | _ n ih =>
    refine ⟨?_, ?_, ?_⟩
    · intro v hsize tag el h
      cases v with
      | none => simp only [to_xml] at h; cases h; exact Sane.leaf _ _
      | str s => simp only [to_xml] at h; cases h; exact Sane.leaf _ _
      | bytes d => simp only [to_xml] at h; cases h; exact Sane.leaf _ _
      | bool b => simp only [to_xml] at h; cases h; exact Sane.leaf _ _
      | int i => simp only [to_xml] at h; cases h; exact Sane.leaf _ _
      | float s => simp only [to_xml] at h; cases h; exact Sane.leaf _ _
      | date s => simp only [to_xml] at h; cases h; exact Sane.leaf _ _
      | dataclass clsName fields =>
          simp only [to_xml] at h
          split at h
          · cases h
          · next cs hcs =>
              cases h
              have hlt : sizeOf fields < n := by
                simp only [Value.dataclass.sizeOf_spec] at hsize; omega
              have hall : ∀ c ∈ cs, Sane c := (ih (sizeOf fields) hlt).2.1 fields le_rfl cs hcs
              cases cs with
              | nil => exact Sane.leaf _ _
              | cons c0 cs2 => exact Sane.node _ _ (by simp) hall
      | basemodel clsName dump =>
          simp only [to_xml] at h
          split at h
          · cases h
          · next cs hcs =>
              cases h
              have hlt : sizeOf dump < n := by
                simp only [Value.basemodel.sizeOf_spec] at hsize; omega
              have hall : ∀ c ∈ cs, Sane c := (ih (sizeOf dump) hlt).2.1 dump le_rfl cs hcs
              cases cs with
              | nil => exact Sane.leaf _ _
              | cons c0 cs2 => exact Sane.node _ _ (by simp) hall
      | mapping entries =>
          simp only [to_xml] at h
          split at h
          · cases h
          · next cs hcs =>
              cases h
              have hlt : sizeOf entries < n := by
                simp only [Value.mapping.sizeOf_spec] at hsize; omega
              have hall : ∀ c ∈ cs, Sane c := (ih (sizeOf entries) hlt).2.1 entries le_rfl cs hcs
              cases cs with
              | nil => exact Sane.leaf _ _
              | cons c0 cs2 => exact Sane.node _ _ (by simp) hall
      | iterable items =>
          simp only [to_xml] at h
          split at h
          · cases h
          · next cs hcs =>
              cases h
              have hlt : sizeOf items < n := by
                simp only [Value.iterable.sizeOf_spec] at hsize; omega
              have hall : ∀ c ∈ cs, Sane c := (ih (sizeOf items) hlt).2.2 items le_rfl cs hcs
              cases cs with
              | nil => exact Sane.leaf _ _
              | cons c0 cs2 => exact Sane.node _ _ (by simp) hall
      | unsupported typeName => simp only [to_xml] at h; cases h
    · intro es hsize cs h c hc
      cases es with
      | nil => simp only [mapping_to_xml] at h; cases h; simp at hc
      | cons kv rest =>
          obtain ⟨k, v⟩ := kv
          simp only [mapping_to_xml] at h
          split at h
          · cases h
          · next kt hk =>
              split at h
              · cases h
              · next c0 hc0 =>
                  split at h
                  · cases h
                  · next cs2 hrest =>
                      cases h
                      have h1 : sizeOf v < n := by
                        simp only [List.cons.sizeOf_spec, Prod.mk.sizeOf_spec] at hsize
                        omega
                      have h2 : sizeOf rest < n := by
                        simp only [List.cons.sizeOf_spec, Prod.mk.sizeOf_spec] at hsize
                        omega
                      rcases List.mem_cons.mp hc with rfl | hc2
                      · exact (ih (sizeOf v) h1).1 v le_rfl (some kt) c hc0
                      · exact (ih (sizeOf rest) h2).2.1 rest le_rfl cs2 hrest c hc2
    · intro vs hsize cs h c hc
      cases vs with
      | nil => simp only [list_to_xml] at h; cases h; simp at hc
      | cons v rest =>
          simp only [list_to_xml] at h
          split at h
          · cases h
          · next c0 hc0 =>
              split at h
              · cases h
              · next cs2 hrest =>
                  cases h
                  have h1 : sizeOf v < n := by
                    simp only [List.cons.sizeOf_spec] at hsize; omega
                  have h2 : sizeOf rest < n := by
                    simp only [List.cons.sizeOf_spec] at hsize; omega
                  rcases List.mem_cons.mp hc with rfl | hc2
                  · exact (ih (sizeOf v) h1).1 v le_rfl Option.none c hc0
                  · exact (ih (sizeOf rest) h2).2.2 rest le_rfl cs2 hrest c hc2

theorem to_xml_sane {it ns : String} {v : Value} {tag : Option String} {el : Element}
    (h : to_xml it ns v tag = .ok el) : Sane el :=
  (sane_all it ns (sizeOf v)).1 v (Nat.le_refl _) tag el h

theorem to_xml_empty_leaf {it ns : String} {v : Value} {tag : Option String} {el : Element}
    (h : to_xml it ns v tag = .ok el) (ht : Element.text el = Option.none)
    (hc : Element.children el = []) : isEmptyContainer v = true := by
  cases v with
  | none => simp only [to_xml] at h; cases h; simp [Element.text] at ht
  | str s => simp only [to_xml] at h; cases h; simp [Element.text] at ht
  | bytes d => simp only [to_xml] at h; cases h; simp [Element.text] at ht
  | bool b => simp only [to_xml] at h; cases h; simp [Element.text] at ht
  | int i => simp only [to_xml] at h; cases h; simp [Element.text] at ht
  | float s => simp only [to_xml] at h; cases h; simp [Element.text] at ht
  | date s => simp only [to_xml] at h; cases h; simp [Element.text] at ht
  | dataclass clsName fields =>
      simp only [to_xml] at h
      split at h
      · cases h
      · next cs hcs =>
          cases h
          simp only [Element.children] at hc
          subst hc
          have hlen := mapping_to_xml_length hcs
          have hf : fields = [] := List.length_eq_zero.mp (by simpa using hlen.symm)
          subst hf
          simp [isEmptyContainer]
  | basemodel clsName dump =>
      simp only [to_xml] at h
      split at h
      · cases h
      · next cs hcs =>
          cases h
          simp only [Element.children] at hc
          subst hc
          have hlen := mapping_to_xml_length hcs
          have hf : dump = [] := List.length_eq_zero.mp (by simpa using hlen.symm)
          subst hf
          simp [isEmptyContainer]
  | mapping entries =>
      simp only [to_xml] at h
      split at h
      · cases h
      · next cs hcs =>
          cases h
          simp only [Element.children] at hc
          subst hc
          have hlen := mapping_to_xml_length hcs
          have hf : entries = [] := List.length_eq_zero.mp (by simpa using hlen.symm)
          subst hf
          simp [isEmptyContainer]
  | iterable items =>
      simp only [to_xml] at h
      split at h
      · cases h
      · next cs hcs =>
          cases h
          simp only [Element.children] at hc
          subst hc
          have hlen := list_to_xml_length hcs
          have hf : items = [] := List.length_eq_zero.mp (by simpa using hlen.symm)
          subst hf
          simp [isEmptyContainer]
  | unsupported typeName => simp only [to_xml] at h; cases h

/-- C2 (counterexample): serializing the empty mapping is accepted but
produces an element with no children and no text — a leaf without text, which
the claimed invariant forbids. -/
theorem claim2_counterexample :
    to_xml "item" "null" (Value.mapping []) (some "t") = .ok (.mk "t" Option.none []) ∧
    ¬ Good (.mk "t" Option.none []) := by
  refine ⟨rfl, ?_⟩
  intro hg
  cases hg with
  | node tag cs hne _ => exact hne rfl

/-- C2 (amended): for every value accepted by the serializer, every element of
the produced tree with at least one child has no direct text (recursively,
`Sane`); an element may lack both text and children, and at the root this
happens exactly when the value is an empty mapping, record or collection. -/
theorem claim2_amended (it ns : String) (v : Value) (tag : Option String) (el : Element)
    (h : to_xml it ns v tag = .ok el) :
    Sane el ∧
      (Element.text el = Option.none → Element.children el = [] →
        isEmptyContainer v = true) :=
  ⟨to_xml_sane h, fun ht hc => to_xml_empty_leaf h ht hc⟩

/-- Witness for C2 (amended) at a concrete input. -/
theorem claim2_amended_witness :
    to_xml "item" "null" (Value.mapping [(Key.str "a", Value.str "hi")]) Option.none
      = .ok (.mk "item" Option.none [.mk "a" (some "hi") []]) ∧
    Sane (.mk "item" Option.none [.mk "a" (some "hi") []]) :=
  ⟨rfl, (claim2_amended "item" "null" (Value.mapping [(Key.str "a", Value.str "hi")])
    Option.none (.mk "item" Option.none [.mk "a" (some "hi") []]) rfl).1⟩

/-- C5: when no root tag is requested and the produced root element has no
direct text, the result is the children of the root serialized individually
(each independently indented when indentation is enabled) and concatenated —
joined with a newline when indentation is enabled, directly otherwise — rather
than wrapped in a synthetic root element. -/
theorem claim5_rootless (it ns : String) (ind : Option String) (obj : Value) (el : Element)
    (h : to_xml it ns obj Option.none = .ok el) (ht : Element.text el = Option.none) :
    format_as_xml obj Option.none it ns ind =
      .ok (String.intercalate (match ind with | Option.none => "" | some _ => "\n")
        (rootless_xml_elements el ind)) := by
  cases ind <;> simp [format_as_xml, h, ht]

/-- Witness for C5 at a concrete input. -/
theorem claim5_rootless_witness :
    to_xml "item" "null" (Value.mapping [(Key.str "a", Value.int 1)]) Option.none
      = .ok (.mk "item" Option.none [.mk "a" (some "1") []]) ∧
    format_as_xml (Value.mapping [(Key.str "a", Value.int 1)]) Option.none "item" "null"
        (some "  ")
      = .ok (String.intercalate "\n"
          (rootless_xml_elements (.mk "item" Option.none [.mk "a" (some "1") []])
            (some "  "))) :=
  ⟨rfl, claim5_rootless "item" "null" (some "  ") (Value.mapping [(Key.str "a", Value.int 1)])
    (.mk "item" Option.none [.mk "a" (some "1") []]) rfl rfl⟩

/-- C6: serializing a mapping that contains a key that is neither a string nor
an integer raises the serializer's single error kind (`TypeError`, modelled as
`Except.error`), and the error is propagated: the whole call returns an error
and no partial output. -/
theorem claim6_bad_key_raises (it ns : String) (rt ind : Option String)
    (es : List (Key × Value)) (k : Key) (v : Value) (n : String)
    (hmem : (k, v) ∈ es) (hk : k = Key.other n) :
    ∃ msg, format_as_xml (Value.mapping es) rt it ns ind = .error msg := by
  obtain ⟨msg, hmsg⟩ := mapping_to_xml_err it ns es k v n hmem hk
  exact ⟨msg, by simp [format_as_xml, to_xml, hmsg]⟩

/-- Witness for C6 at a concrete input. -/
theorem claim6_bad_key_raises_witness :
    ((Key.other "frozenset", Value.none) ∈ [((Key.other "frozenset" : Key), Value.none)]) ∧
    ∃ msg, format_as_xml (Value.mapping [(Key.other "frozenset", Value.none)])
      Option.none "item" "null" Option.none = .error msg :=
  ⟨List.mem_singleton.mpr rfl,
    claim6_bad_key_raises "item" "null" Option.none Option.none
      [(Key.other "frozenset", Value.none)] (Key.other "frozenset") Value.none "frozenset"
      (List.mem_singleton.mpr rfl) rfl⟩

/-- C7: serialization is deterministic — the embedding is a pure function, so
serializing twice with identical configuration yields identical output — and
mapping entry order is preserved as given: the children of a serialized
mapping correspond 1-1, in order, to the entries, each tagged with its
(stringified) key. -/
theorem claim7_deterministic_ordered (it ns : String) (rt ind tag : Option String)
    (es : List (Key × Value)) (el : Element)
    (h : to_xml it ns (Value.mapping es) tag = .ok el) :
    format_as_xml (Value.mapping es) rt it ns ind
        = format_as_xml (Value.mapping es) rt it ns ind ∧
    List.Forall₂ (fun kv c => key_to_tag kv.1 = .ok (Element.tag c)) es
      (Element.children el) := by
  refine ⟨rfl, ?_⟩
  simp only [to_xml] at h
  split at h
  · cases h
  · next cs hcs =>
      cases h
      simpa [Element.children] using mapping_to_xml_forall2 hcs

/-- Witness for C7 at a concrete input. -/
theorem claim7_deterministic_ordered_witness :
    to_xml "item" "null"
        (Value.mapping [(Key.str "a", Value.int 1), (Key.int 2, Value.none)]) Option.none
      = .ok (.mk "item" Option.none [.mk "a" (some "1") [], .mk "2" (some "null") []]) ∧
    List.Forall₂ (fun kv c => key_to_tag kv.1 = .ok (Element.tag c))
      [(Key.str "a", Value.int 1), (Key.int 2, Value.none)]
      (Element.children (.mk "item" Option.none
        [.mk "a" (some "1") [], .mk "2" (some "null") []])) :=
  ⟨rfl, (claim7_deterministic_ordered "item" "null" Option.none Option.none Option.none
    [(Key.str "a", Value.int 1), (Key.int 2, Value.none)]
    (.mk "item" Option.none [.mk "a" (some "1") [], .mk "2" (some "null") []]) rfl).2⟩

/-- C9: serializing an empty mapping or an empty collection with no root tag
requested yields the empty string, for any item tag, null placeholder and
indent setting. -/
theorem claim9_empty_rootless (it ns : String) (ind : Option String) :
    format_as_xml (Value.mapping []) Option.none it ns ind = .ok "" ∧
    format_as_xml (Value.iterable []) Option.none it ns ind = .ok "" := by
  cases ind <;> exact ⟨rfl, rfl⟩

/-- C10 (counterexample): a mapping containing a boolean key can still raise —
here the entry's value is a bare `object()` instance, which matches none of
the recognised categories (it is no scalar, no date, no dataclass or model,
and has no `__iter__`, so it is neither `Mapping` nor `Iterable`) and reaches
the final `raise TypeError` of `to_xml` — so "for every mapping containing a
boolean key, serialization does not raise" is false as stated: Python
`format_as_xml({True: object()})` raises. -/
theorem claim10_counterexample :
    format_as_xml (Value.mapping [(Key.bool true, Value.unsupported "object")])
      Option.none "item" "null" Option.none
      = .error "Unsupported type for XML formatting: object" := rfl

/-- C10 (amended): a boolean key itself never causes an error: it passes the
integer-key branch of `_mapping_to_xml` and is stringified to
`"True"`/`"False"`, so whenever serialization of the mapping succeeds, the
child element corresponding to a boolean-keyed entry is tagged `"True"` or
`"False"` (serialization can still fail for other entries or values). -/
theorem claim10_bool_key (it ns : String) (tag : Option String)
    (es : List (Key × Value)) (el : Element) (b : Bool) (v : Value)
    (h : to_xml it ns (Value.mapping es) tag = .ok el)
    (hmem : (Key.bool b, v) ∈ es) :
    key_to_tag (Key.bool b) = .ok (if b then "True" else "False") ∧
    ∃ c ∈ Element.children el, Element.tag c = (if b then "True" else "False") := by
  refine ⟨rfl, ?_⟩
  simp only [to_xml] at h
  split at h
  · cases h
  · next cs hcs =>
      cases h
      obtain ⟨c, hc, hr⟩ := forall2_exists_right (mapping_to_xml_forall2 hcs) _ hmem
      refine ⟨c, by simpa [Element.children] using hc, ?_⟩
      simp only [key_to_tag, Except.ok.injEq] at hr
      exact hr.symm

/-- Witness for C10 (amended) at a concrete input. -/
theorem claim10_bool_key_witness :
    to_xml "item" "null" (Value.mapping [(Key.bool true, Value.int 1)]) Option.none
      = .ok (.mk "item" Option.none [.mk "True" (some "1") []]) ∧
    ((Key.bool true, Value.int 1) ∈ [((Key.bool true : Key), (Value.int 1 : Value))]) ∧
    (key_to_tag (Key.bool true) = .ok "True" ∧
      ∃ c ∈ Element.children (.mk "item" Option.none [.mk "True" (some "1") []]),
        Element.tag c = "True") := by
  refine ⟨rfl, List.mem_singleton.mpr rfl, ?_⟩
  simpa using claim10_bool_key "item" "null" Option.none
    [(Key.bool true, Value.int 1)] (.mk "item" Option.none [.mk "True" (some "1") []])
    true (Value.int 1) rfl (List.mem_singleton.mpr rfl)

end FormatPrompt
